import Mathlib

/-!
Verification of the dwlf-cli API-client module: the symbol normalizer
(`normalizeSymbol`), the parameter cleaner (`cleanParams`), the retry/backoff
machinery (`shouldRetry`, `calculateRetryDelay`, the `makeRequest` loop with
its response interceptor `handleError`), the error normalizer
(`extractErrorMessage`), and the rolling-window `RateLimiter`.

Strings are modelled as `List Char`; JavaScript's `trim()`/`toUpperCase()`
are modelled on the ASCII range (tickers and error codes are ASCII).
-/

/-- ASCII model of JavaScript `toUpperCase` on a single character. -/
def upChar (c : Char) : Char :=
  match c with
  | 'a' => 'A' | 'b' => 'B' | 'c' => 'C' | 'd' => 'D' | 'e' => 'E' | 'f' => 'F'
  | 'g' => 'G' | 'h' => 'H' | 'i' => 'I' | 'j' => 'J' | 'k' => 'K' | 'l' => 'L'
  | 'm' => 'M' | 'n' => 'N' | 'o' => 'O' | 'p' => 'P' | 'q' => 'Q' | 'r' => 'R'
  | 's' => 'S' | 't' => 'T' | 'u' => 'U' | 'v' => 'V' | 'w' => 'W' | 'x' => 'X'
  | 'y' => 'Y' | 'z' => 'Z'
  | _ => c

/-- Whitespace as removed by JavaScript `String.prototype.trim` (common ASCII cases). -/
def isSpaceCh (c : Char) : Bool :=
  match c with
  | ' ' => true | '\t' => true | '\n' => true | '\r' => true
  | _ => false

/-- The character class `[A-Z]` of the concatenated-pair regex. -/
def isUpperAlpha (c : Char) : Bool :=
  decide ('A' ≤ c) && decide (c ≤ 'Z')

/-- Strip leading and trailing whitespace (model of JS `trim`). -/
def trimEnds (l : List Char) : List Char :=
  ((l.dropWhile isSpaceCh).reverse.dropWhile isSpaceCh).reverse

/-- Model of `input.trim().toUpperCase()` from `normalizeSymbol`. -/
def trimUpper (l : List Char) : List Char :=
  (trimEnds l).map upChar

/-- Model of JS `s.replace('/', '-')`: string-pattern `replace` rewrites only
the first occurrence. -/
def replaceFirstSlash : List Char → List Char
  | [] => []
  | c :: rest => if c = '/' then '-' :: rest else c :: replaceFirstSlash rest

/-- The fixed allow-list `KNOWN_STOCKS` of the source. -/
def KNOWN_STOCKS : List (List Char) :=
  ["NVDA".data, "TSLA".data, "META".data, "AAPL".data, "AMZN".data, "GOOG".data,
   "GOOGL".data, "MSFT".data, "AMD".data,
   "SLV".data, "GDXJ".data, "SILJ".data, "AGQ".data, "GLD".data, "GDX".data, "GOLD".data,
   "MARA".data, "RIOT".data, "BTBT".data, "CIFR".data, "IREN".data, "CLSK".data,
   "COIN".data, "MSTR".data, "HUT".data, "HIVE".data, "BITF".data, "WULF".data,
   "LSPD".data, "SOFI".data]

/-- The quote currencies of the concatenated-pair regex `(USD|USDT|EUR|GBP|BTC|ETH)`. -/
def SUFFIXES : List (List Char) :=
  ["USD".data, "USDT".data, "EUR".data, "GBP".data, "BTC".data, "ETH".data]

/-- One backtracking attempt of the regex `^([A-Z]{2,5})(USD|USDT|EUR|GBP|BTC|ETH)$`
with the capture group taking exactly `k` characters: because of the `$` anchor the
second group must equal the whole remainder. -/
def tryPair (s : List Char) (k : Nat) : Option (List Char × List Char) :=
  if (s.take k).all isUpperAlpha ∧ s.drop k ∈ SUFFIXES then some (s.take k, s.drop k)
  else none

/-- Model of `s.match(/^([A-Z]{2,5})(USD|USDT|EUR|GBP|BTC|ETH)$/)`: the greedy
`{2,5}` quantifier tries the longest capture first. -/
def pairMatch (s : List Char) : Option (List Char × List Char) :=
  match tryPair s 5 with
  | some r => some r
  | none =>
    match tryPair s 4 with
    | some r => some r
    | none =>
      match tryPair s 3 with
      | some r => some r
      | none => tryPair s 2

/-- The `normalizeSymbol` function of src/api-client (symbol normalizer). -/
def normalizeSymbol (input : List Char) : List Char :=
  let s := trimUpper input
  if '/' ∈ s then replaceFirstSlash s
  else if '-' ∈ s then s
  else if s ∈ KNOWN_STOCKS then s
  else
    match pairMatch s with
    | some bq => bq.1 ++ '-' :: bq.2
    | none => s ++ "-USD".data

/-- String-level wrapper of `normalizeSymbol`, for concrete statements. -/
def normalizeSymbolS (s : String) : String :=
  String.mk (normalizeSymbol s.data)

/-- Model of JS `needle.length ≤ hay.length` prefix test used by `containsSeq`. -/
def startsWith : List Char → List Char → Bool
  | [], _ => true
  | _ :: _, [] => false
  | a :: as, b :: bs => a == b && startsWith as bs

/-- Model of JS `hay.includes(needle)` (substring containment). -/
def containsSeq (needle : List Char) : List Char → Bool
  | [] => needle.isEmpty
  | c :: rest => startsWith needle (c :: rest) || containsSeq needle rest

/-- A JavaScript value as far as the API client inspects one: `undefined`,
`null`, numbers (integral model), strings, booleans. -/
inductive JSValue where
  | undef
  | vnull
  | vnum (n : Int)
  | vstr (s : String)
  | vbool (b : Bool)
deriving DecidableEq

/-- JS truthiness for the modelled values (`NaN` is not modelled). -/
def truthy : JSValue → Bool
  | .undef => false
  | .vnull => false
  | .vnum n => !(n == 0)
  | .vstr s => !(s == "")
  | .vbool b => b

/-- Model of `JSON.stringify` restricted to the modelled values; only reached
for non-string values in `extractErrorMessage`. -/
def jsonStringify : JSValue → String
  | .undef => "undefined"
  | .vnull => "null"
  | .vnum n => toString n
  | .vstr s => "\"" ++ s ++ "\""
  | .vbool b => toString b

/-- Model of the JS `String(x)` conversion. -/
def jsString : JSValue → String
  | .undef => "undefined"
  | .vnull => "null"
  | .vnum n => toString n
  | .vstr s => s
  | .vbool b => toString b

/-- `DWLFApiClient.cleanParams`: builds a fresh record keeping entries whose
value is neither `undefined` nor `null`, then returns it (or `{}` when empty).
A parameter object is modelled as its entry list in insertion order. -/
def cleanParams (params : List (String × JSValue)) : List (String × JSValue) :=
  let cleaned :=
    params.foldl
      (fun acc kv => if kv.2 ≠ JSValue.undef ∧ kv.2 ≠ JSValue.vnull then acc ++ [kv] else acc)
      []
  if cleaned.length > 0 then cleaned else []

/-- The part of `error.response` that the client reads: the HTTP status and
the body's `error` / `message` fields (`none` = property absent). -/
structure RespInfo where
  status : Nat
  errField : Option JSValue
  msgField : Option JSValue
deriving DecidableEq

/-- A JS error object as the client sees one: raw axios errors carry `code`
and `response`; the `ApiError` built by `handleError` carries `status` and
`isApiError` instead. Absent properties are `none`. -/
structure JsError where
  message : String
  code : Option String
  response : Option RespInfo
  status : Option Nat
  isApiError : Bool
deriving DecidableEq

/-- A raw axios-style error (no `status`/`isApiError` properties). -/
def mkAxiosError (msg : String) (code : Option String) (resp : Option RespInfo) : JsError :=
  { message := msg, code := code, response := resp, status := none, isApiError := false }

/-- The `if (data?.error) return typeof data.error === 'string' ? data.error :
JSON.stringify(data.error)` step of `extractErrorMessage`. -/
def fieldMsgErr (errF : Option JSValue) : Option String :=
  match errF with
  | some v =>
    if truthy v then
      some (match v with | .vstr s => s | w => jsonStringify w)
    else none
  | none => none

/-- The `if (data?.message) return String(data.message)` step of
`extractErrorMessage`. -/
def fieldMsgMsg (msgF : Option JSValue) : Option String :=
  match msgF with
  | some v => if truthy v then some (jsString v) else none
  | none => none

/-- The final `return error.message || 'Unknown error occurred'` of
`extractErrorMessage`. -/
def rawFallback (msg : String) : String :=
  if msg = "" then "Unknown error occurred" else msg

/-- `DWLFApiClient.extractErrorMessage`, transcribed clause by clause. The
`status && status >= 500` truthiness guard is `500 ≤ status` (statuses are
positive). -/
def extractErrorMessage (e : JsError) : String :=
  if e.code = some "ECONNREFUSED" then
    "Cannot connect to DWLF API. Please check your internet connection."
  else if e.code = some "ETIMEDOUT" ∨ containsSeq "timeout".data e.message.data = true then
    "Request timed out. Please try again."
  else
    match e.response with
    | some r =>
      if r.status = 401 then "Invalid API key. Please check your authentication credentials."
      else if r.status = 403 then "Access forbidden. You may not have permission to access this resource."
      else if r.status = 404 then "Resource not found."
      else if r.status = 429 then "Rate limit exceeded. Please wait a moment before trying again."
      else if 500 ≤ r.status then "Server error. Please try again later."
      else
        match fieldMsgErr r.errField with
        | some m => m
        | none =>
          match fieldMsgMsg r.msgField with
          | some m => m
          | none => rawFallback e.message
    | none => rawFallback e.message

/-- `DWLFApiClient.handleError`: the response interceptor's rejection handler.
It throws a fresh `Error` whose message is the normalized one prefixed with
`API Error: `, carrying `status` and `isApiError` — and no `code`/`response`. -/
def handleError (e : JsError) : JsError :=
  { message := "API Error: " ++ extractErrorMessage e,
    code := none,
    response := none,
    status := e.response.map RespInfo.status,
    isApiError := true }

/-- The client's `retryConfig` record. -/
structure RetryConfig where
  maxRetries : Nat
  baseDelay : Nat
  maxDelay : Nat
  backoffMultiplier : Nat
deriving DecidableEq

/-- The constructor's wiring of `retryConfig` from the options (defaults
`maxRetries = 3`, `retryDelay = 1000`; `maxDelay` and `backoffMultiplier`
are fixed at `10000` and `2`). -/
def clientRetryConfig (maxRetriesOpt retryDelayOpt : Option Nat) : RetryConfig :=
  { maxRetries := maxRetriesOpt.getD 3,
    baseDelay := retryDelayOpt.getD 1000,
    maxDelay := 10000,
    backoffMultiplier := 2 }

/-- `DWLFApiClient.calculateRetryDelay`. -/
def calculateRetryDelay (rc : RetryConfig) (attempt : Nat) : Nat :=
  min (rc.baseDelay * rc.backoffMultiplier ^ (attempt - 1)) rc.maxDelay

/-- `DWLFApiClient.shouldRetry`, transcribed clause by clause. -/
def shouldRetry (rc : RetryConfig) (e : JsError) (attempt : Nat) : Bool :=
  if rc.maxRetries ≤ attempt then false
  else if e.code = some "ECONNREFUSED" ∨ e.code = some "ETIMEDOUT" then true
  else
    match e.response with
    | some r => r.status == 429 || (decide (500 ≤ r.status) && decide (r.status ≤ 599))
    | none => false

/-- The `while (true)` body of `DWLFApiClient.makeRequest`. `responses n` is
the outcome of the `n`-th HTTP call (1-based). Returns the propagated result,
the number of HTTP calls made, and the retry delays slept. The loop retries
only while `attempt < maxRetries`, so recursion depth is below `maxRetries`
and the fuel (first `Nat`) never runs out when it starts at `maxRetries + 1`. -/
def makeRequestAux (rc : RetryConfig) (responses : Nat → Except JsError α) :
    Nat → Nat → Except JsError α × Nat × List Nat
  | 0, attempt =>
    match responses attempt with
    | .ok v => (.ok v, 1, [])
    | .error e => (.error e, 1, [])
  | fuel + 1, attempt =>
    match responses attempt with
    | .ok v => (.ok v, 1, [])
    | .error e =>
      if shouldRetry rc e attempt then
        let r := makeRequestAux rc responses fuel (attempt + 1)
        (r.1, r.2.1 + 1, calculateRetryDelay rc attempt :: r.2.2)
      else (.error e, 1, [])

/-- `makeRequest` as exercised by the unit tests: the jest mock's
`interceptors.response.use` never runs the stored handler, so the raw axios
errors reach the catch block unchanged. -/
def makeRequestMocked (rc : RetryConfig) (responses : Nat → Except JsError α) :
    Except JsError α × Nat × List Nat :=
  makeRequestAux rc responses (rc.maxRetries + 1) 1

/-- Each rejection as transformed by the registered response interceptor
before the catch block of `makeRequest` sees it. -/
def interceptResponses (responses : Nat → Except JsError α) : Nat → Except JsError α :=
  fun i => (responses i).mapError handleError

/-- `makeRequest` under real axios semantics: the registered response
interceptor rewrites every rejection through `handleError` before the catch
block (and hence `shouldRetry`) sees it. -/
def makeRequestProd (rc : RetryConfig) (responses : Nat → Except JsError α) :
    Except JsError α × Nat × List Nat :=
  makeRequestAux rc (interceptResponses responses) (rc.maxRetries + 1) 1

/-- `Math.min(...requests)` for a non-empty list (0 for the empty list, which
the guarded caller never passes when `maxRequests > 0`). -/
def listMin : List Nat → Nat
  | [] => 0
  | x :: xs => xs.foldl Nat.min x

/-- `RateLimiter.wait`, fuelled. At time `now` it prunes timestamps with
`now - t < windowMs`, and if still at capacity sleeps until the oldest
pruned-in timestamp leaves the window — the JS wake-up time
`now + (windowMs - (now - oldest))` equals `oldest + windowMs` — and retries;
otherwise it records `now` and dispatches. `none` = fuel exhausted. -/
def waitFrom (maxReq win : Nat) : Nat → List Nat → Nat → Option (Nat × List Nat)
  | 0, _, _ => none
  | fuel + 1, requests, now =>
    if maxReq ≤ (requests.filter (fun t => decide (now - t < win))).length then
      waitFrom maxReq win fuel (requests.filter (fun t => decide (now - t < win)))
        (listMin (requests.filter (fun t => decide (now - t < win))) + win)
    else some (now, requests.filter (fun t => decide (now - t < win)) ++ [now])

/-- A serialized run of requests through one `RateLimiter`: each entry of
`gaps` is one request, issued `gap` ms after the previous dispatch (0 =
back-to-back). Returns the dispatch timestamps. -/
def runSeq (maxReq win fuel : Nat) : List Nat → List Nat → Nat → List Nat
  | [], _, _ => []
  | g :: gs, requests, now =>
    match waitFrom maxReq win fuel requests now with
    | none => []
    | some dr => dr.1 :: runSeq maxReq win fuel gs dr.2 (dr.1 + g)

/-- The spec's transient-failure class: connection-refused, timeout, HTTP 429
or HTTP 5xx — the tail of `shouldRetry` with the attempt bound removed. -/
def isTransient (e : JsError) : Bool :=
  if e.code = some "ECONNREFUSED" ∨ e.code = some "ETIMEDOUT" then true
  else
    match e.response with
    | some r => r.status == 429 || (decide (500 ≤ r.status) && decide (r.status ≤ 599))
    | none => false

/-- Spec-side classifier: connection-refused failures. -/
def classifyConn (e : JsError) : Option String :=
  if e.code = some "ECONNREFUSED" then
    some "Cannot connect to DWLF API. Please check your internet connection."
  else none

/-- Spec-side classifier: timeout failures. -/
def classifyTimeout (e : JsError) : Option String :=
  if e.code = some "ETIMEDOUT" ∨ containsSeq "timeout".data e.message.data = true then
    some "Request timed out. Please try again."
  else none

/-- Spec-side classifier: the fixed per-status messages (401/403/404/429 and
server errors, status ≥ 500). -/
def classifyStatus (e : JsError) : Option String :=
  match e.response with
  | some r =>
    if r.status = 401 then some "Invalid API key. Please check your authentication credentials."
    else if r.status = 403 then some "Access forbidden. You may not have permission to access this resource."
    else if r.status = 404 then some "Resource not found."
    else if r.status = 429 then some "Rate limit exceeded. Please wait a moment before trying again."
    else if 500 ≤ r.status then some "Server error. Please try again later."
    else none
  | none => none

/-- Spec-side classifier: message extracted from the response body, `error`
field first, then `message` field (truthy values only). -/
def classifyBody (e : JsError) : Option String :=
  match e.response with
  | some r =>
    match fieldMsgErr r.errField with
    | some m => some m
    | none => fieldMsgMsg r.msgField
  | none => none

/-- The error-normalization taxonomy as the spec describes it, as a
first-match-wins cascade of classifiers ending in the raw-message fallback. -/
def specNormalizedMessage (e : JsError) : String :=
  match classifyConn e with
  | some m => m
  | none =>
    match classifyTimeout e with
    | some m => m
    | none =>
      match classifyStatus e with
      | some m => m
      | none =>
        match classifyBody e with
        | some m => m
        | none => rawFallback e.message

/-- A connection-refused axios error, as built by the retry tests. -/
def connRefusedError : JsError :=
  mkAxiosError "Network Error" (some "ECONNREFUSED") none

/-- An HTTP 404 axios error. -/
def notFoundError : JsError :=
  mkAxiosError "Request failed with status code 404" none (some ⟨404, none, none⟩)

/-- An HTTP 429 axios error. -/
def rateLimitedError : JsError :=
  mkAxiosError "Request failed with status code 429" none (some ⟨429, none, none⟩)

/-- An HTTP 500 axios error. -/
def serverError500 : JsError :=
  mkAxiosError "Server error" none (some ⟨500, none, none⟩)

/-- A request whose every attempt is refused at the connection level. -/
def connRefusedOracle : Nat → Except JsError Unit :=
  fun _ => Except.error connRefusedError

/-- A request whose every attempt fails with HTTP 404. -/
def notFoundOracle : Nat → Except JsError Unit :=
  fun _ => Except.error notFoundError

/-- A request whose every attempt fails with HTTP 500. -/
def serverErrorOracle : Nat → Except JsError Unit :=
  fun _ => Except.error serverError500

/-!  Theorems.  First the character-table lemmas, then general list lemmas,
then the claims. -/

theorem upChar_of_upperAlpha (c : Char) (h : isUpperAlpha c = true) : upChar c = c := by
  unfold upChar
  split
  all_goals first | rfl | simp_all [isUpperAlpha]

theorem upChar_upperAlpha_or_fix (c : Char) :
    isUpperAlpha (upChar c) = true ∨ upChar c = c := by
  unfold upChar
  split
  all_goals first | (left; decide) | (right; rfl)

theorem upChar_upChar (c : Char) : upChar (upChar c) = upChar c := by
  rcases upChar_upperAlpha_or_fix c with h | h
  · exact upChar_of_upperAlpha _ h
  · rw [h]; exact h

theorem isSpaceCh_upChar (c : Char) : isSpaceCh (upChar c) = isSpaceCh c := by
  unfold upChar
  split
  all_goals simp_all [isSpaceCh]

theorem upChar_eq_slash (c : Char) : (upChar c = '/') ↔ c = '/' := by
  unfold upChar
  split
  all_goals first | exact Iff.rfl | simp_all

theorem upChar_eq_dash (c : Char) : (upChar c = '-') ↔ c = '-' := by
  unfold upChar
  split
  all_goals first | exact Iff.rfl | simp_all

theorem upperAlpha_not_space (c : Char) (h : isUpperAlpha c = true) : isSpaceCh c = false := by
  unfold isUpperAlpha at h
  unfold isSpaceCh
  split
  all_goals simp_all

theorem upperAlpha_ne_slash (c : Char) (h : isUpperAlpha c = true) : c ≠ '/' := by
  intro hc
  subst hc
  exact absurd h (by decide)

theorem upperAlpha_ne_dash (c : Char) (h : isUpperAlpha c = true) : c ≠ '-' := by
  intro hc
  subst hc
  exact absurd h (by decide)

theorem replaceFirstSlash_append (u v : List Char) (hu : '/' ∉ u) :
    replaceFirstSlash (u ++ '/' :: v) = u ++ '-' :: v := by
  induction u with
  | nil => simp [replaceFirstSlash]
  | cons c us ih =>
    have hc : c ≠ '/' := by intro h; exact hu (by simp [h])
    have hus : '/' ∉ us := by intro h; exact hu (List.mem_cons_of_mem _ h)
    simp [replaceFirstSlash, hc, ih hus]

theorem cleanParams_foldl (l acc : List (String × JSValue)) :
    l.foldl (fun a kv => if kv.2 ≠ JSValue.undef ∧ kv.2 ≠ JSValue.vnull then a ++ [kv] else a) acc
      = acc ++ l.filter (fun kv => decide (kv.2 ≠ JSValue.undef ∧ kv.2 ≠ JSValue.vnull)) := by
  induction l generalizing acc with
  | nil => simp
  | cons kv rest ih =>
    by_cases h : kv.2 ≠ JSValue.undef ∧ kv.2 ≠ JSValue.vnull
    · simp [h, ih]
    · simp [h, ih]

theorem cleanParams_eq_filter (l : List (String × JSValue)) :
    cleanParams l = l.filter (fun kv => decide (kv.2 ≠ JSValue.undef ∧ kv.2 ≠ JSValue.vnull)) := by
  unfold cleanParams
  rw [cleanParams_foldl]
  simp only [List.nil_append]
  by_cases h : (l.filter (fun kv => decide (kv.2 ≠ JSValue.undef ∧ kv.2 ≠ JSValue.vnull))).length > 0
  · rw [if_pos h]
  · rw [if_neg h]
    have h0 : (l.filter (fun kv => decide (kv.2 ≠ JSValue.undef ∧ kv.2 ≠ JSValue.vnull))).length = 0 := by
      omega
    rw [List.length_eq_zero.mp h0]

/-- C9: `cleanParams` removes exactly the `undefined`/`null` entries and keeps
every other key/value pair unchanged and in order; in particular entries with
the falsy-but-defined values `0` and `""` are kept. -/
theorem c9_clean_params_drops_only_nullish (k : String) (params : List (String × JSValue)) :
    cleanParams params
        = params.filter (fun kv => decide (kv.2 ≠ JSValue.undef ∧ kv.2 ≠ JSValue.vnull)) ∧
    cleanParams ((k, JSValue.vnum 0) :: params) = (k, JSValue.vnum 0) :: cleanParams params ∧
    cleanParams ((k, JSValue.vstr "") :: params) = (k, JSValue.vstr "") :: cleanParams params ∧
    cleanParams ((k, JSValue.undef) :: params) = cleanParams params ∧
    cleanParams ((k, JSValue.vnull) :: params) = cleanParams params := by
  refine ⟨cleanParams_eq_filter params, ?_, ?_, ?_, ?_⟩ <;>
    rw [cleanParams_eq_filter, cleanParams_eq_filter, List.filter_cons] <;> simp

/-- C4: the delay before retry attempt `n` is
`min(baseDelay * backoffMultiplier ^ (n-1), maxDelay)`; with `baseDelay = 100`
and the constructor's `multiplier = 2`, `maxDelay = 10000`, a persistently
failing run sleeps 100ms, 200ms, 400ms before retries 1, 2, 3. -/
theorem c4_retry_delay_backoff (n : Nat) (h : 1 ≤ n) :
    calculateRetryDelay (clientRetryConfig none (some 100)) n = min (100 * 2 ^ (n - 1)) 10000 ∧
    (makeRequestMocked (clientRetryConfig (some 4) (some 100)) connRefusedOracle).2.2
      = [100, 200, 400] := by
  exact ⟨rfl, by decide⟩

theorem c4_retry_delay_backoff_witness :
    calculateRetryDelay (clientRetryConfig none (some 100)) 2 = min (100 * 2 ^ (2 - 1)) 10000 :=
  (c4_retry_delay_backoff 2 (by decide)).1

/-- C6 counterexample: on `"a/b/c"` the normalizer upper-cases the input and
replaces only the first `/`, so the output is neither the input with all `/`
replaced nor the input with its first `/` replaced. -/
theorem c6_counterexample_case_and_first_only :
    normalizeSymbolS "a/b/c" = "A-B/C" ∧ "A-B/C" ≠ "a-b-c" ∧ "A-B/C" ≠ "a-b/c" := by
  decide

/-- C6 (amended): for every input whose trimmed upper-cased form contains `/`,
the normalizer returns that form with the first `/` replaced by `-`. -/
theorem c6_slash_replacement (s : List Char) (h : '/' ∈ trimUpper s) :
    normalizeSymbol s = replaceFirstSlash (trimUpper s) ∧
    ∀ u v : List Char, '/' ∉ u → replaceFirstSlash (u ++ '/' :: v) = u ++ '-' :: v := by
  refine ⟨?_, fun u v hu => replaceFirstSlash_append u v hu⟩
  simp [normalizeSymbol, h]

theorem c6_slash_replacement_witness :
    normalizeSymbol "x/y".data = replaceFirstSlash (trimUpper "x/y".data) :=
  (c6_slash_replacement "x/y".data (by decide)).1

/-- C7 counterexample: the spec's own example `"btc-usd"` is upper-cased, so
the normalizer is not the identity on every input containing `-`. -/
theorem c7_counterexample_lowercase_dash :
    normalizeSymbolS "btc-usd" = "BTC-USD" ∧ "BTC-USD" ≠ "btc-usd" := by
  decide

/-- C7 (amended): on inputs that are already trimmed and upper-cased, contain
`-` and contain no `/`, the normalizer is the identity. -/
theorem c7_dash_identity (s : List Char) (h1 : trimUpper s = s) (h2 : '-' ∈ s)
    (h3 : '/' ∉ s) : normalizeSymbol s = s := by
  simp [normalizeSymbol, h1, h2, h3]

theorem c7_dash_identity_witness : normalizeSymbol "BTC-USD".data = "BTC-USD".data :=
  c7_dash_identity "BTC-USD".data (by decide) (by decide) (by decide)

/-- C1: evaluation of a request whose every attempt is refused, with
`maxRetries = 2`. Under real axios semantics the response interceptor rewrites
the rejection through `handleError` before `shouldRetry` reads `code`/
`response`, so exactly 1 HTTP call is made (the claim and the repo's own test
expect 3); even with raw errors reaching the catch block (as under the jest
mock, whose interceptors are inert) only 2 calls are made, because
`shouldRetry` stops once `attempt >= maxRetries` counting the initial attempt.
The propagated production error does carry the normalized
cannot-connect message. -/
theorem c1_connection_refused_evaluation :
    (makeRequestProd (clientRetryConfig (some 2) (some 1)) connRefusedOracle).2.1 = 1 ∧
    (makeRequestMocked (clientRetryConfig (some 2) (some 1)) connRefusedOracle).2.1 = 2 ∧
    (makeRequestProd (clientRetryConfig (some 2) (some 1)) connRefusedOracle).1 =
      Except.error (handleError connRefusedError) ∧
    containsSeq ("cannot connect".data.map upChar)
      ((handleError connRefusedError).message.data.map upChar) = true := by
  refine ⟨by decide, by decide, rfl, by decide⟩

/-- C3: `shouldRetry` implements exactly the policy `attempts-so-far < max ∧
transient` on raw errors, treats 429 like 5xx, and a 404 makes exactly one
call; but under real axios semantics the interceptor-transformed error defeats
the classification, so a transient HTTP 500 failure with `maxRetries = 3` is
never retried in production (1 call instead of the 3 the mocked loop makes). -/
theorem c3_retry_policy_evaluation :
    (∀ (rc : RetryConfig) (e : JsError) (a : Nat),
        shouldRetry rc e a = (decide (a < rc.maxRetries) && isTransient e)) ∧
    (∀ (rc : RetryConfig) (a : Nat),
        shouldRetry rc rateLimitedError a = shouldRetry rc serverError500 a) ∧
    (makeRequestProd (clientRetryConfig (some 3) (some 1)) notFoundOracle).2.1 = 1 ∧
    (makeRequestMocked (clientRetryConfig (some 3) (some 1)) notFoundOracle).2.1 = 1 ∧
    isTransient serverError500 = true ∧
    shouldRetry (clientRetryConfig (some 3) (some 1)) serverError500 1 = true ∧
    shouldRetry (clientRetryConfig (some 3) (some 1)) (handleError serverError500) 1 = false ∧
    (makeRequestProd (clientRetryConfig (some 3) (some 1)) serverErrorOracle).2.1 = 1 ∧
    (makeRequestMocked (clientRetryConfig (some 3) (some 1)) serverErrorOracle).2.1 = 3 := by
  refine ⟨?_, ?_, by decide, by decide, by decide, by decide, by decide, by decide, by decide⟩
  · intro rc e a
    by_cases h : rc.maxRetries ≤ a
    · have h2 : ¬ a < rc.maxRetries := by omega
      simp [shouldRetry, h, h2]
    · have h2 : a < rc.maxRetries := by omega
      simp [shouldRetry, isTransient, h, h2]
  · intro rc a
    by_cases h : rc.maxRetries ≤ a <;>
      simp [shouldRetry, h, rateLimitedError, serverError500, mkAxiosError]

/-- C5 counterexample: for a failure with status 400, a present-but-empty
body `error` field and an empty transport message, the claim predicts the
empty message (body `error` field, or the raw-message fallback), but the code
skips falsy fields and empty messages and yields `Unknown error occurred`. -/
theorem c5_counterexample_falsy_fallback :
    extractErrorMessage (mkAxiosError "" none (some ⟨400, some (JSValue.vstr ""), none⟩))
        = "Unknown error occurred" ∧
    "Unknown error occurred" ≠ "" := by
  decide

/-- C5 (amended): every failure is mapped to exactly one normalized message by
the first-match cascade connection-refused, timeout, 401, 403, 404, 429,
server-error (status ≥ 500), truthy body `error` field, truthy body `message`
field, non-empty raw transport message, `Unknown error occurred`; and the
propagated `ApiError` carries the HTTP status code and the prefixed message. -/
theorem c5_error_normalization (e : JsError) :
    extractErrorMessage e = specNormalizedMessage e ∧
    (handleError e).message = "API Error: " ++ extractErrorMessage e ∧
    (handleError e).status = e.response.map RespInfo.status := by
  refine ⟨?_, rfl, rfl⟩
  by_cases h1 : e.code = some "ECONNREFUSED"
  · simp [extractErrorMessage, specNormalizedMessage, classifyConn, h1]
  · by_cases h2 : e.code = some "ETIMEDOUT" ∨ containsSeq "timeout".data e.message.data = true
    · simp [extractErrorMessage, specNormalizedMessage, classifyConn, classifyTimeout, h1, h2]
    · cases hr : e.response with
      | none =>
        simp [extractErrorMessage, specNormalizedMessage, classifyConn, classifyTimeout,
          classifyStatus, classifyBody, h1, h2, hr]
      | some r =>
        by_cases s1 : r.status = 401
        · simp [extractErrorMessage, specNormalizedMessage, classifyConn, classifyTimeout,
            classifyStatus, h1, h2, hr, s1]
        · by_cases s2 : r.status = 403
          · simp [extractErrorMessage, specNormalizedMessage, classifyConn, classifyTimeout,
              classifyStatus, h1, h2, hr, s1, s2]
          · by_cases s3 : r.status = 404
            · simp [extractErrorMessage, specNormalizedMessage, classifyConn, classifyTimeout,
                classifyStatus, h1, h2, hr, s1, s2, s3]
            · by_cases s4 : r.status = 429
              · simp [extractErrorMessage, specNormalizedMessage, classifyConn, classifyTimeout,
                  classifyStatus, h1, h2, hr, s1, s2, s3, s4]
              · by_cases s5 : 500 ≤ r.status
                · simp [extractErrorMessage, specNormalizedMessage, classifyConn, classifyTimeout,
                    classifyStatus, h1, h2, hr, s1, s2, s3, s4, s5]
                · cases hm : fieldMsgErr r.errField with
                  | some m =>
                    simp [extractErrorMessage, specNormalizedMessage, classifyConn, classifyTimeout,
                      classifyStatus, classifyBody, h1, h2, hr, s1, s2, s3, s4, s5, hm]
                  | none =>
                    cases hm2 : fieldMsgMsg r.msgField with
                    | some m =>
                      simp [extractErrorMessage, specNormalizedMessage, classifyConn,
                        classifyTimeout, classifyStatus, classifyBody, h1, h2, hr,
                        s1, s2, s3, s4, s5, hm, hm2]
                    | none =>
                      simp [extractErrorMessage, specNormalizedMessage, classifyConn,
                        classifyTimeout, classifyStatus, classifyBody, h1, h2, hr,
                        s1, s2, s3, s4, s5, hm, hm2]

theorem suffixes_upper : ∀ q ∈ SUFFIXES, q.all isUpperAlpha = true := by decide

theorem suffixes_len_le : ∀ q ∈ SUFFIXES, q.length ≤ 4 := by decide

theorem suffixes_drop_not :
    ∀ q ∈ SUFFIXES, q.drop 1 ∉ SUFFIXES ∧ q.drop 2 ∉ SUFFIXES ∧ q.drop 3 ∉ SUFFIXES := by
  decide

theorem mem_known_no_suffix : ∀ q ∈ SUFFIXES, ∀ k ∈ KNOWN_STOCKS, ¬ q <:+ k := by decide

theorem suffix_drop_not_mem (q : List Char) (hq : q ∈ SUFFIXES) (j : Nat) (hj : 1 ≤ j) :
    q.drop j ∉ SUFFIXES := by
  by_cases hj4 : 4 ≤ j
  · have hnil : q.drop j = [] := List.drop_eq_nil_of_le (by have := suffixes_len_le q hq; omega)
    rw [hnil]
    decide
  · have hj123 : j = 1 ∨ j = 2 ∨ j = 3 := by omega
    rcases hj123 with h | h | h <;> subst h
    · exact (suffixes_drop_not q hq).1
    · exact (suffixes_drop_not q hq).2.1
    · exact (suffixes_drop_not q hq).2.2

theorem dropWhile_of_forall_false (p : Char → Bool) (l : List Char)
    (h : ∀ c ∈ l, p c = false) : l.dropWhile p = l := by
  cases l with
  | nil => rfl
  | cons c rest =>
    have hc : p c = false := h c (List.mem_cons_self _ _)
    simp [List.dropWhile_cons, hc]

theorem trimUpper_of_upperAlpha (l : List Char) (h : l.all isUpperAlpha = true) :
    trimUpper l = l := by
  have hsp : ∀ c ∈ l, isSpaceCh c = false := by
    intro c hc
    exact upperAlpha_not_space c (List.all_eq_true.mp h c hc)
  have h1 : l.dropWhile isSpaceCh = l := dropWhile_of_forall_false _ _ hsp
  have h2 : l.reverse.dropWhile isSpaceCh = l.reverse :=
    dropWhile_of_forall_false _ _ (fun c hc => hsp c (List.mem_reverse.mp hc))
  have h3 : trimEnds l = l := by
    unfold trimEnds
    rw [h1, h2, List.reverse_reverse]
  unfold trimUpper
  rw [h3]
  have h4 : ∀ c ∈ l, upChar c = c := by
    intro c hc
    exact upChar_of_upperAlpha c (List.all_eq_true.mp h c hc)
  rw [List.map_congr_left h4]
  simp

theorem tryPair_of_split (b q : List Char) (hb : b.all isUpperAlpha = true)
    (hq : q ∈ SUFFIXES) : tryPair (b ++ q) b.length = some (b, q) := by
  unfold tryPair
  rw [List.take_left, List.drop_left, if_pos ⟨hb, hq⟩]

theorem tryPair_none_of_gt (b q : List Char) (hq : q ∈ SUFFIXES) (k : Nat)
    (hk : b.length < k) : tryPair (b ++ q) k = none := by
  unfold tryPair
  rw [if_neg]
  intro hcond
  have hdrop : (b ++ q).drop k = q.drop (k - b.length) := by
    conv_lhs => rw [show k = b.length + (k - b.length) by omega]
    rw [← List.drop_drop, List.drop_left]
  exact suffix_drop_not_mem q hq (k - b.length) (by omega) (hdrop ▸ hcond.2)

theorem pairMatch_split (b q : List Char) (h2 : 2 ≤ b.length) (h5 : b.length ≤ 5)
    (hb : b.all isUpperAlpha = true) (hq : q ∈ SUFFIXES) :
    pairMatch (b ++ q) = some (b, q) := by
  unfold pairMatch
  have hlen : b.length = 2 ∨ b.length = 3 ∨ b.length = 4 ∨ b.length = 5 := by omega
  have hsplit := tryPair_of_split b q hb hq
  rcases hlen with h | h | h | h
  · simp only [tryPair_none_of_gt b q hq 5 (by omega), tryPair_none_of_gt b q hq 4 (by omega),
      tryPair_none_of_gt b q hq 3 (by omega)]
    rw [← h] at *
    simp only [hsplit]
  · simp only [tryPair_none_of_gt b q hq 5 (by omega), tryPair_none_of_gt b q hq 4 (by omega)]
    rw [← h] at *
    simp only [hsplit]
  · simp only [tryPair_none_of_gt b q hq 5 (by omega)]
    rw [← h] at *
    simp only [hsplit]
  · rw [← h] at *
    simp only [hsplit]

theorem pair_split_normalize (b q : List Char) (h2 : 2 ≤ b.length) (h5 : b.length ≤ 5)
    (hb : b.all isUpperAlpha = true) (hq : q ∈ SUFFIXES) :
    normalizeSymbol (b ++ q) = b ++ '-' :: q := by
  have hqu : q.all isUpperAlpha = true := suffixes_upper q hq
  have hall : (b ++ q).all isUpperAlpha = true := by
    rw [List.all_append, hb, hqu]
    rfl
  have htrim : trimUpper (b ++ q) = b ++ q := trimUpper_of_upperAlpha _ hall
  have hslash : '/' ∉ b ++ q := by
    intro hmem
    exact upperAlpha_ne_slash _ (List.all_eq_true.mp hall _ hmem) rfl
  have hdash : '-' ∉ b ++ q := by
    intro hmem
    exact upperAlpha_ne_dash _ (List.all_eq_true.mp hall _ hmem) rfl
  have hknown : b ++ q ∉ KNOWN_STOCKS := by
    intro hk
    exact mem_known_no_suffix q hq (b ++ q) hk (List.suffix_append b q)
  simp [normalizeSymbol, htrim, hslash, hdash, hknown, pairMatch_split b q h2 h5 hb hq]

/-- C8: the five specified examples of the normalizer, and the general
concatenated-pair rule: 2-5 uppercase letters followed by one of the quote
currencies USD, USDT, EUR, GBP, BTC, ETH is split into `base-quote`. -/
theorem c8_normalizer_examples :
    normalizeSymbolS "btc" = "BTC-USD" ∧
    normalizeSymbolS "ETH/USDT" = "ETH-USDT" ∧
    normalizeSymbolS "BTCUSD" = "BTC-USD" ∧
    normalizeSymbolS "AAPL" = "AAPL" ∧
    normalizeSymbolS "btc-usd" = "BTC-USD" ∧
    ∀ b q : List Char, 2 ≤ b.length → b.length ≤ 5 → b.all isUpperAlpha = true →
      q ∈ SUFFIXES → normalizeSymbol (b ++ q) = b ++ '-' :: q :=
  ⟨by decide, by decide, by decide, by decide, by decide,
   fun b q h2 h5 hb hq => pair_split_normalize b q h2 h5 hb hq⟩

theorem c8_normalizer_examples_witness :
    normalizeSymbol ("SOL".data ++ "USD".data) = "SOL".data ++ '-' :: "USD".data :=
  c8_normalizer_examples.2.2.2.2.2 "SOL".data "USD".data (by decide) (by decide)
    (by decide) (by decide)

theorem foldl_min_mem (xs : List Nat) : ∀ x : Nat, xs.foldl Nat.min x ∈ x :: xs := by
  induction xs with
  | nil => intro x; exact List.mem_singleton.mpr rfl
  | cons y ys ih =>
    intro x
    have h := ih (Nat.min x y)
    rcases List.mem_cons.mp h with h1 | h1
    · simp only [List.foldl_cons]
      rw [h1]
      rcases Nat.le_total x y with hxy | hxy
      · have hm : Nat.min x y = x := Nat.min_eq_left hxy
        rw [hm]
        exact List.mem_cons_self _ _
      · have hm : Nat.min x y = y := Nat.min_eq_right hxy
        rw [hm]
        exact List.mem_cons_of_mem _ (List.mem_cons_self _ _)
    · simp only [List.foldl_cons]
      exact List.mem_cons_of_mem _ (List.mem_cons_of_mem _ h1)

theorem listMin_mem (l : List Nat) (h : l ≠ []) : listMin l ∈ l := by
  cases l with
  | nil => exact absurd rfl h
  | cons x xs => exact foldl_min_mem xs x

theorem filter_absorb (win t1 t2 : Nat) (l : List Nat) (h : t1 ≤ t2) :
    (l.filter (fun t => decide (t1 - t < win))).filter (fun t => decide (t2 - t < win))
      = l.filter (fun t => decide (t2 - t < win)) := by
  rw [List.filter_filter]
  apply List.filter_congr
  intro a _
  by_cases hd : t2 - a < win
  · have h1 : t1 - a < win := by omega
    simp [hd, h1]
  · simp [hd]

theorem waitFrom_spec (maxReq win : Nat) (hmax : 1 ≤ maxReq) :
    ∀ (fuel : Nat) (reqs : List Nat) (now d : Nat) (reqs2 : List Nat),
      waitFrom maxReq win fuel reqs now = some (d, reqs2) →
      now ≤ d ∧ reqs2 = (reqs.filter (fun t => decide (d - t < win))) ++ [d] ∧
        (reqs.filter (fun t => decide (d - t < win))).length < maxReq := by
  intro fuel
  induction fuel with
  | zero =>
    intro reqs now d reqs2 h
    exact absurd h (by simp [waitFrom])
  | succ fuel ih =>
    intro reqs now d reqs2 h
    unfold waitFrom at h
    by_cases hcap : maxReq ≤ (reqs.filter (fun t => decide (now - t < win))).length
    · rw [if_pos hcap] at h
      obtain ⟨h1, h2, h3⟩ := ih (reqs.filter (fun t => decide (now - t < win)))
        (listMin (reqs.filter (fun t => decide (now - t < win))) + win) d reqs2 h
      have hne : reqs.filter (fun t => decide (now - t < win)) ≠ [] := by
        intro he
        rw [he] at hcap
        simp at hcap
        omega
      have hmem := listMin_mem _ hne
      have hlt : now - listMin (reqs.filter (fun t => decide (now - t < win))) < win := by
        have hp := (List.mem_filter.mp hmem).2
        exact of_decide_eq_true hp
      have hnowle : now ≤ listMin (reqs.filter (fun t => decide (now - t < win))) + win := by
        omega
      have hnd : now ≤ d := by omega
      refine ⟨hnd, ?_, ?_⟩
      · rw [h2, filter_absorb win now d reqs hnd]
      · rw [← filter_absorb win now d reqs hnd]
        exact h3
    · rw [if_neg hcap] at h
      injection h with h1
      injection h1 with hd hr
      subst hd
      subst hr
      exact ⟨Nat.le_refl now, rfl, by omega⟩

theorem runSeq_alive_bound (maxReq win : Nat) (hmax : 1 ≤ maxReq) (hwin : 1 ≤ win) :
    ∀ (gaps : List Nat) (fuel : Nat) (reqs : List Nat) (now τ : Nat) (ds : List Nat),
      τ ≤ now →
      reqs = ds.filter (fun t => decide (τ - t < win)) →
      ∀ (xs : List Nat) (d : Nat) (zs : List Nat),
        runSeq maxReq win fuel gaps reqs now = xs ++ d :: zs →
        ((ds ++ xs).filter (fun t => decide (d - t < win))).length < maxReq := by
  intro gaps
  induction gaps with
  | nil =>
    intro fuel reqs now τ ds hτ hinv xs d zs h
    simp [runSeq] at h
  | cons g gs ih =>
    intro fuel reqs now τ ds hτ hinv xs d zs h
    unfold runSeq at h
    cases hw : waitFrom maxReq win fuel reqs now with
    | none =>
      rw [hw] at h
      simp at h
    | some dr =>
      rw [hw] at h
      obtain ⟨hd1, hd2, hd3⟩ := waitFrom_spec maxReq win hmax fuel reqs now dr.1 dr.2 (by rw [hw])
      cases xs with
      | nil =>
        injection h with h1 h2
        subst h1
        have hτd : τ ≤ dr.1 := by omega
        simp only [List.append_nil]
        rw [← filter_absorb win τ dr.1 ds hτd, ← hinv]
        exact hd3
      | cons x xs2 =>
        injection h with h1 h2
        subst h1
        have hτd : τ ≤ dr.1 := by omega
        have hwin0 : ((0 : Nat) < win) := by omega
        have hstep : dr.2 = (ds ++ [dr.1]).filter (fun t => decide (dr.1 - t < win)) := by
          rw [hd2, hinv, filter_absorb win τ dr.1 ds hτd, List.filter_append]
          simp [hwin0]
        have hrec := ih fuel dr.2 (dr.1 + g) dr.1 (ds ++ [dr.1]) (by omega) hstep xs2 d zs h2
        have hlist : ds ++ dr.1 :: xs2 = (ds ++ [dr.1]) ++ xs2 := by simp
        rw [hlist]
        exact hrec

theorem countP_last_split (p : Nat → Bool) (l : List Nat) (h : 0 < l.countP p) :
    ∃ xs d zs, l = xs ++ d :: zs ∧ p d = true ∧ zs.countP p = 0 := by
  induction l with
  | nil => simp at h
  | cons x rest ih =>
    by_cases hr : 0 < rest.countP p
    · obtain ⟨xs, d, zs, he, hd, hz⟩ := ih hr
      exact ⟨x :: xs, d, zs, by rw [List.cons_append, he], hd, hz⟩
    · have hz : rest.countP p = 0 := by omega
      have hx : p x = true := by
        rw [List.countP_cons] at h
      -- countP (x :: rest) = countP rest + if p x then 1 else 0
        by_cases hpx : p x = true
        · exact hpx
        · simp [hpx, hz] at h
      exact ⟨[], x, rest, rfl, hx, hz⟩

/-- C2: in any serialized run through a rate limiter with positive
`maxRequests` and `windowMs`, at most `maxRequests` dispatches fall in any
window `[a, a + windowMs)`; and with `{maxRequests:2, windowMs:1000}` three
back-to-back requests dispatch at times 0, 0 and 1000 — the third is held
until the first two timestamps are a full window old. -/
theorem c2_rate_limiter_window (maxReq win fuel t0 : Nat) (gaps : List Nat) (a : Nat)
    (hmax : 1 ≤ maxReq) (hwin : 1 ≤ win) :
    (runSeq maxReq win fuel gaps [] t0).countP
        (fun d => decide (a ≤ d) && decide (d < a + win)) ≤ maxReq ∧
    runSeq 2 1000 10 [0, 0, 0] [] 0 = [0, 0, 1000] := by
  refine ⟨?_, by decide⟩
  by_cases h0 : 0 < (runSeq maxReq win fuel gaps [] t0).countP
      (fun d => decide (a ≤ d) && decide (d < a + win))
  · obtain ⟨xs, d, zs, hsplit, hd, hz⟩ := countP_last_split _ _ h0
    have hbound := runSeq_alive_bound maxReq win hmax hwin gaps fuel [] t0 t0 []
      (Nat.le_refl t0) (by simp) xs d zs hsplit
    have hxs : (xs.filter (fun t => decide (d - t < win))).length < maxReq := by
      simpa using hbound
    have hdw : a ≤ d ∧ d < a + win := by
      have := hd
      simp only [Bool.and_eq_true, decide_eq_true_eq] at this
      exact this
    have hmono : xs.countP (fun t => decide (a ≤ t) && decide (t < a + win))
        ≤ xs.countP (fun t => decide (d - t < win)) := by
      apply List.countP_mono_left
      intro t _ hpt
      simp only [Bool.and_eq_true, decide_eq_true_eq] at hpt
      simp only [decide_eq_true_eq]
      omega
    have hcnt : xs.countP (fun t => decide (d - t < win))
        = (xs.filter (fun t => decide (d - t < win))).length := by
      rw [List.countP_eq_length_filter]
    have htot : (runSeq maxReq win fuel gaps [] t0).countP
        (fun t => decide (a ≤ t) && decide (t < a + win))
        = xs.countP (fun t => decide (a ≤ t) && decide (t < a + win)) + 1 := by
      rw [hsplit]
      simp [List.countP_append, List.countP_cons, hd, hz]
    omega
  · omega

theorem c2_rate_limiter_window_witness :
    (runSeq 2 1000 10 [0, 0, 0] [] 0).countP
        (fun d => decide (500 ≤ d) && decide (d < 1500)) ≤ 2 :=
  (c2_rate_limiter_window 2 1000 10 0 [0, 0, 0] 500 (by decide) (by decide)).1

theorem head?_dropWhile_false (p : Char → Bool) (l : List Char) :
    ∀ c, (l.dropWhile p).head? = some c → p c = false := by
  intro c hc
  have h := List.head?_dropWhile_not p l
  rw [hc] at h
  exact h

theorem trimEnds_getLast_not_space (l : List Char) :
    ∀ c, (trimEnds l).getLast? = some c → isSpaceCh c = false := by
  intro c hc
  unfold trimEnds at hc
  rw [List.getLast?_reverse] at hc
  exact head?_dropWhile_false _ _ c hc

theorem trimEnds_head_not_space (l : List Char) :
    ∀ c, (trimEnds l).head? = some c → isSpaceCh c = false := by
  intro c hc
  obtain ⟨pre, hpre⟩ :=
    List.dropWhile_suffix (l := (l.dropWhile isSpaceCh).reverse) isSpaceCh
  have ha : ((l.dropWhile isSpaceCh).reverse.dropWhile isSpaceCh).reverse ++ pre.reverse
      = l.dropWhile isSpaceCh := by
    simpa [List.reverse_append] using congrArg List.reverse hpre
  have hA : (l.dropWhile isSpaceCh).head? = some c := by
    rw [← ha, List.head?_append]
    unfold trimEnds at hc
    rw [hc]
    rfl
  exact head?_dropWhile_false _ _ c hA

theorem trimUpper_eq_self (l : List Char)
    (hmap : ∀ c ∈ l, upChar c = c)
    (hh : ∀ c, l.head? = some c → isSpaceCh c = false)
    (hl : ∀ c, l.getLast? = some c → isSpaceCh c = false) :
    trimUpper l = l := by
  have h1 : l.dropWhile isSpaceCh = l := by
    cases l with
    | nil => rfl
    | cons a rest =>
      have ha := hh a rfl
      simp [List.dropWhile_cons, ha]
  have h2 : l.reverse.dropWhile isSpaceCh = l.reverse := by
    cases hr : l.reverse with
    | nil => rfl
    | cons a rest =>
      have ha : l.getLast? = some a := by
        rw [← List.head?_reverse, hr]
        rfl
      have hsp := hl a ha
      simp [List.dropWhile_cons, hsp]
  unfold trimUpper trimEnds
  rw [h1, h2, List.reverse_reverse, List.map_congr_left hmap]
  simp

theorem trimUpper_map_fix (l : List Char) : ∀ c ∈ trimUpper l, upChar c = c := by
  intro c hc
  unfold trimUpper at hc
  obtain ⟨a, ha, rfl⟩ := List.mem_map.mp hc
  exact upChar_upChar a

theorem trimUpper_head_not_space (l : List Char) :
    ∀ c, (trimUpper l).head? = some c → isSpaceCh c = false := by
  intro c hc
  unfold trimUpper at hc
  rw [List.head?_map] at hc
  cases hh : (trimEnds l).head? with
  | none =>
    rw [hh] at hc
    exact absurd hc (by simp)
  | some a =>
    rw [hh] at hc
    have hac : upChar a = c := by simpa using hc
    rw [← hac, isSpaceCh_upChar]
    exact trimEnds_head_not_space l a hh

theorem trimUpper_getLast_not_space (l : List Char) :
    ∀ c, (trimUpper l).getLast? = some c → isSpaceCh c = false := by
  intro c hc
  unfold trimUpper at hc
  rw [List.getLast?_map] at hc
  cases hh : (trimEnds l).getLast? with
  | none =>
    rw [hh] at hc
    exact absurd hc (by simp)
  | some a =>
    rw [hh] at hc
    have hac : upChar a = c := by simpa using hc
    rw [← hac, isSpaceCh_upChar]
    exact trimEnds_getLast_not_space l a hh

theorem trimUpper_idem (l : List Char) : trimUpper (trimUpper l) = trimUpper l :=
  trimUpper_eq_self _ (trimUpper_map_fix l) (trimUpper_head_not_space l)
    (trimUpper_getLast_not_space l)

theorem count_slash_map_upChar (x : List Char) : (x.map upChar).count '/' = x.count '/' := by
  induction x with
  | nil => rfl
  | cons a rest ih =>
    by_cases ha : a = '/'
    · subst ha
      simp [List.count_cons, ih, show upChar '/' = '/' by decide]
    · have hb : upChar a ≠ '/' := fun hcc => ha ((upChar_eq_slash a).mp hcc)
      simp [List.count_cons, ih, ha, hb]

theorem count_slash_trimUpper_le (l : List Char) :
    (trimUpper l).count '/' ≤ l.count '/' := by
  unfold trimUpper trimEnds
  rw [count_slash_map_upChar, List.count_reverse]
  calc ((l.dropWhile isSpaceCh).reverse.dropWhile isSpaceCh).count '/'
      ≤ (l.dropWhile isSpaceCh).reverse.count '/' :=
        (List.dropWhile_sublist isSpaceCh).count_le '/'
    _ = (l.dropWhile isSpaceCh).count '/' := List.count_reverse _ _
    _ ≤ l.count '/' := (List.dropWhile_sublist isSpaceCh).count_le '/'

theorem mem_split_first (c : Char) (l : List Char) (h : c ∈ l) :
    ∃ u v, l = u ++ c :: v ∧ c ∉ u := by
  induction l with
  | nil => simp at h
  | cons a rest ih =>
    by_cases ha : a = c
    · subst ha
      exact ⟨[], rest, rfl, by simp⟩
    · rcases List.mem_cons.mp h with h1 | h1
      · exact absurd h1.symm ha
      · obtain ⟨u, v, he, hu⟩ := ih h1
        refine ⟨a :: u, v, by rw [List.cons_append, he], ?_⟩
        intro hm
        rcases List.mem_cons.mp hm with h2 | h2
        · exact ha h2.symm
        · exact hu h2

theorem mem_count_le_one_split (c : Char) (l : List Char) (hm : c ∈ l)
    (hc : l.count c ≤ 1) : ∃ u v, l = u ++ c :: v ∧ c ∉ u ∧ c ∉ v := by
  obtain ⟨u, v, he, hu⟩ := mem_split_first c l hm
  refine ⟨u, v, he, hu, ?_⟩
  intro hv
  have hv1 : 0 < v.count c := List.count_pos_iff.mpr hv
  rw [he] at hc
  simp [List.count_append, List.count_cons] at hc
  omega

theorem getLast?_append_cons (u : List Char) (x : Char) (v : List Char) :
    (u ++ x :: v).getLast? = (x :: v).getLast? := by
  rw [List.getLast?_append]
  cases hl : (x :: v).getLast? with
  | none => exact absurd hl (by simp)
  | some a => rfl

theorem normalize_fix_dash (r : List Char) (htr : trimUpper r = r) (h3 : '/' ∉ r)
    (h2 : '-' ∈ r) : normalizeSymbol r = r := by
  simp [normalizeSymbol, htr, h2, h3]

theorem normalize_fix_known (r : List Char) (htr : trimUpper r = r) (h3 : '/' ∉ r)
    (h2 : '-' ∉ r) (hk : r ∈ KNOWN_STOCKS) : normalizeSymbol r = r := by
  simp [normalizeSymbol, htr, h2, h3, hk]

theorem suffixes_ne_nil : ∀ q ∈ SUFFIXES, q ≠ [] := by decide

theorem tryPair_some_props (s2 : List Char) (k : Nat) (bq : List Char × List Char)
    (h : tryPair s2 k = some bq) :
    s2 = bq.1 ++ bq.2 ∧ bq.1.all isUpperAlpha = true ∧ bq.2 ∈ SUFFIXES := by
  unfold tryPair at h
  by_cases hc : (s2.take k).all isUpperAlpha = true ∧ s2.drop k ∈ SUFFIXES
  · rw [if_pos hc] at h
    injection h with h1
    subst h1
    exact ⟨(List.take_append_drop k s2).symm, hc.1, hc.2⟩
  · rw [if_neg hc] at h
    exact absurd h (by simp)

theorem pairMatch_some_props (s2 : List Char) (bq : List Char × List Char)
    (h : pairMatch s2 = some bq) :
    s2 = bq.1 ++ bq.2 ∧ bq.1.all isUpperAlpha = true ∧ bq.2 ∈ SUFFIXES := by
  unfold pairMatch at h
  cases h5 : tryPair s2 5 with
  | some r =>
    simp only [h5] at h
    injection h with h1
    subst h1
    exact tryPair_some_props s2 5 r h5
  | none =>
    simp only [h5] at h
    cases h4 : tryPair s2 4 with
    | some r =>
      simp only [h4] at h
      injection h with h1
      subst h1
      exact tryPair_some_props s2 4 r h4
    | none =>
      simp only [h4] at h
      cases h3 : tryPair s2 3 with
      | some r =>
        simp only [h3] at h
        injection h with h1
        subst h1
        exact tryPair_some_props s2 3 r h3
      | none =>
        simp only [h3] at h
        exact tryPair_some_props s2 2 bq h

/-- C10: on inputs with at most one `/`, `normalizeSymbol` is idempotent, and
every output either contains `-` or is an allow-list member. -/
theorem c10_normalize_idempotent (s : List Char) (h : s.count '/' ≤ 1) :
    normalizeSymbol (normalizeSymbol s) = normalizeSymbol s ∧
    ('-' ∈ normalizeSymbol s ∨ normalizeSymbol s ∈ KNOWN_STOCKS) := by
  have ctmap := trimUpper_map_fix s
  have cthead := trimUpper_head_not_space s
  have ctlast := trimUpper_getLast_not_space s
  have ctidem := trimUpper_idem s
  by_cases h1 : '/' ∈ trimUpper s
  · have hr : normalizeSymbol s = replaceFirstSlash (trimUpper s) := by
      simp [normalizeSymbol, h1]
    have hcnt : (trimUpper s).count '/' ≤ 1 :=
      le_trans (count_slash_trimUpper_le s) h
    obtain ⟨u, v, huv, hu, hv⟩ := mem_count_le_one_split '/' (trimUpper s) h1 hcnt
    have hr2 : normalizeSymbol s = u ++ '-' :: v := by
      rw [hr, huv]
      exact replaceFirstSlash_append u v hu
    have hmapr : ∀ c ∈ u ++ '-' :: v, upChar c = c := by
      intro c hc
      rcases List.mem_append.mp hc with hcu | hcv
      · exact ctmap c (by rw [huv]; exact List.mem_append.mpr (Or.inl hcu))
      · rcases List.mem_cons.mp hcv with hcd | hcv2
        · subst hcd
          decide
        · exact ctmap c
            (by rw [huv]; exact List.mem_append.mpr (Or.inr (List.mem_cons_of_mem _ hcv2)))
    have hheadr : ∀ c, (u ++ '-' :: v).head? = some c → isSpaceCh c = false := by
      intro c hc
      cases u with
      | nil =>
        simp only [List.nil_append, List.head?_cons] at hc
        injection hc with hc2
        rw [← hc2]
        decide
      | cons a u2 =>
        simp only [List.cons_append, List.head?_cons] at hc
        injection hc with hc2
        rw [← hc2]
        exact cthead a (by rw [huv]; rfl)
    have hlastr : ∀ c, (u ++ '-' :: v).getLast? = some c → isSpaceCh c = false := by
      intro c hc
      rw [getLast?_append_cons] at hc
      cases v with
      | nil =>
        simp only [List.getLast?_singleton] at hc
        injection hc with hc2
        rw [← hc2]
        decide
      | cons b v2 =>
        rw [List.getLast?_cons_cons] at hc
        refine ctlast c ?_
        rw [huv, getLast?_append_cons, List.getLast?_cons_cons]
        exact hc
    have htr : trimUpper (u ++ '-' :: v) = u ++ '-' :: v :=
      trimUpper_eq_self _ hmapr hheadr hlastr
    have hnos : '/' ∉ u ++ '-' :: v := by
      intro hm
      rcases List.mem_append.mp hm with hmu | hmv
      · exact hu hmu
      · rcases List.mem_cons.mp hmv with hmd | hmv2
        · exact absurd hmd (by decide)
        · exact hv hmv2
    have hdash : '-' ∈ u ++ '-' :: v :=
      List.mem_append.mpr (Or.inr (List.mem_cons_self _ _))
    rw [hr2]
    exact ⟨normalize_fix_dash _ htr hnos hdash, Or.inl hdash⟩
  · by_cases h2 : '-' ∈ trimUpper s
    · have hr : normalizeSymbol s = trimUpper s := by
        simp [normalizeSymbol, h1, h2]
      rw [hr]
      exact ⟨normalize_fix_dash _ ctidem h1 h2, Or.inl h2⟩
    · by_cases h3 : trimUpper s ∈ KNOWN_STOCKS
      · have hr : normalizeSymbol s = trimUpper s := by
          simp [normalizeSymbol, h1, h2, h3]
        rw [hr]
        exact ⟨normalize_fix_known _ ctidem h1 h2 h3, Or.inr h3⟩
      · cases hp : pairMatch (trimUpper s) with
        | some bq =>
          have hr : normalizeSymbol s = bq.1 ++ '-' :: bq.2 := by
            simp [normalizeSymbol, h1, h2, h3, hp]
          obtain ⟨hsplit, hbu, hbq⟩ := pairMatch_some_props _ bq hp
          have hqu : bq.2.all isUpperAlpha = true := suffixes_upper _ hbq
          have hmapr : ∀ c ∈ bq.1 ++ '-' :: bq.2, upChar c = c := by
            intro c hc
            rcases List.mem_append.mp hc with hcu | hcv
            · exact upChar_of_upperAlpha c (List.all_eq_true.mp hbu c hcu)
            · rcases List.mem_cons.mp hcv with hcd | hcv2
              · subst hcd
                decide
              · exact upChar_of_upperAlpha c (List.all_eq_true.mp hqu c hcv2)
          have hheadr : ∀ c, (bq.1 ++ '-' :: bq.2).head? = some c → isSpaceCh c = false := by
            intro c hc
            cases hb1 : bq.1 with
            | nil =>
              rw [hb1] at hc
              simp only [List.nil_append, List.head?_cons] at hc
              injection hc with hc2
              rw [← hc2]
              decide
            | cons a u2 =>
              rw [hb1] at hc
              simp only [List.cons_append, List.head?_cons] at hc
              injection hc with hc2
              rw [← hc2]
              exact upperAlpha_not_space a
                (List.all_eq_true.mp hbu a (by rw [hb1]; exact List.mem_cons_self _ _))
          have hlastr : ∀ c, (bq.1 ++ '-' :: bq.2).getLast? = some c → isSpaceCh c = false := by
            intro c hc
            rw [getLast?_append_cons] at hc
            cases hb2 : bq.2 with
            | nil => exact absurd hb2 (suffixes_ne_nil _ hbq)
            | cons b v2 =>
              rw [hb2, List.getLast?_cons_cons] at hc
              have hcm : c ∈ bq.2 := by
                rw [hb2]
                exact List.mem_of_getLast?_eq_some hc
              exact upperAlpha_not_space c (List.all_eq_true.mp hqu c hcm)
          have htr : trimUpper (bq.1 ++ '-' :: bq.2) = bq.1 ++ '-' :: bq.2 :=
            trimUpper_eq_self _ hmapr hheadr hlastr
          have hnos : '/' ∉ bq.1 ++ '-' :: bq.2 := by
            intro hm
            rcases List.mem_append.mp hm with hmu | hmv
            · exact upperAlpha_ne_slash _ (List.all_eq_true.mp hbu _ hmu) rfl
            · rcases List.mem_cons.mp hmv with hmd | hmv2
              · exact absurd hmd (by decide)
              · exact upperAlpha_ne_slash _ (List.all_eq_true.mp hqu _ hmv2) rfl
          have hdash : '-' ∈ bq.1 ++ '-' :: bq.2 :=
            List.mem_append.mpr (Or.inr (List.mem_cons_self _ _))
          rw [hr]
          exact ⟨normalize_fix_dash _ htr hnos hdash, Or.inl hdash⟩
        | none =>
          have hr : normalizeSymbol s = trimUpper s ++ "-USD".data := by
            simp [normalizeSymbol, h1, h2, h3, hp]
          have husd : ∀ c ∈ ("-USD".data : List Char), upChar c = c := by decide
          have hmapr : ∀ c ∈ trimUpper s ++ "-USD".data, upChar c = c := by
            intro c hc
            rcases List.mem_append.mp hc with hcu | hcv
            · exact ctmap c hcu
            · exact husd c hcv
          have hheadr : ∀ c, (trimUpper s ++ "-USD".data).head? = some c →
              isSpaceCh c = false := by
            intro c hc
            cases ht : trimUpper s with
            | nil =>
              rw [ht] at hc
              have hd : (("-USD".data : List Char)).head? = some '-' := by decide
              rw [List.nil_append, hd] at hc
              injection hc with hc2
              rw [← hc2]
              decide
            | cons a u2 =>
              rw [ht] at hc
              simp only [List.cons_append, List.head?_cons] at hc
              injection hc with hc2
              rw [← hc2]
              exact cthead a (by rw [ht]; rfl)
          have hlastr : ∀ c, (trimUpper s ++ "-USD".data).getLast? = some c →
              isSpaceCh c = false := by
            intro c hc
            have hgl : (("-USD".data : List Char)).getLast? = some 'D' := by decide
            rw [List.getLast?_append, hgl, Option.or_some] at hc
            injection hc with hc2
            rw [← hc2]
            decide
          have htr : trimUpper (trimUpper s ++ "-USD".data) = trimUpper s ++ "-USD".data :=
            trimUpper_eq_self _ hmapr hheadr hlastr
          have hnos : '/' ∉ trimUpper s ++ "-USD".data := by
            intro hm
            rcases List.mem_append.mp hm with hmu | hmv
            · exact h1 hmu
            · exact absurd hmv (by decide)
          have hdash : '-' ∈ trimUpper s ++ "-USD".data :=
            List.mem_append.mpr (Or.inr (by decide))
          rw [hr]
          exact ⟨normalize_fix_dash _ htr hnos hdash, Or.inl hdash⟩

theorem c10_normalize_idempotent_witness :
    normalizeSymbol (normalizeSymbol "BTC/USD".data) = normalizeSymbol "BTC/USD".data :=
  (c10_normalize_idempotent "BTC/USD".data (by decide)).1
